import Mathlib

/-!
Verification of the HTML/text alignment and grounding utilities of the
Wikipedia discussion analyzer (src/app/utils.py, src/analyzers/openai_analyzer.py).

Strings are embedded as `List Char`.  Python's `re` searches used by the source
are all either literal-substring searches (the patterns are `re.escape`d) or
word-boundary searches (`\b suffix \b`), so they are embedded as executable
scans over character lists.  Case-insensitivity (`re.IGNORECASE`) is embedded
with `Char.toLower`, and `\w` (for `\b`) as ASCII alphanumerics plus
underscore, which is faithful on the ASCII texts the program manipulates.
-/

set_option maxHeartbeats 1000000
set_option maxRecDepth 8000

abbrev Str := List Char

def lowerStr (s : Str) : Str := s.map Char.toLower

/-- Case-insensitive test that `n` is a prefix of `t` (character-wise `toLower`). -/
def ciPrefixAt : Str → Str → Bool
  | [], _ => true
  | _ :: _, [] => false
  | a :: as, b :: bs => (a.toLower == b.toLower) && ciPrefixAt as bs

/-- Embedding of `re.search(re.escape(n), t, re.IGNORECASE)`: case-insensitive
substring search. -/
def ciFind (n : Str) : Str → Bool
  | [] => ciPrefixAt n []
  | c :: cs => ciPrefixAt n (c :: cs) || ciFind n cs

/-- Python regex `\w` restricted to ASCII: letters, digits, underscore. -/
def wordChar (c : Char) : Bool := c.isAlphanum || c == '_'

def wordCharO : Option Char → Bool
  | none => false
  | some c => wordChar c

/-- A `\b` word boundary sits between two neighbouring positions exactly when
one neighbour is a word character and the other is not (or is absent). -/
def bdry (a b : Option Char) : Bool := wordCharO a != wordCharO b

def hdO : Str → Option Char
  | [] => none
  | c :: _ => some c

/-- Word-boundary match of `n` at the current position (regex `\b n \b` with
`re.IGNORECASE`); `prev` is the character just before the position (`none` at
the start of the subject).  Boundaries are computed on the subject text, as
Python `re` does. -/
def wwAt (n t : Str) (prev : Option Char) : Bool :=
  ciPrefixAt n t &&
  bdry prev (hdO t) &&
  (match n with
   | [] => bdry prev (hdO t)
   | _ :: _ => bdry (t.take n.length).getLast? (hdO (t.drop n.length)))

/-- Embedding of `re.search(r'\b' + re.escape(n) + r'\b', t, re.IGNORECASE)`. -/
def wwFind (n : Str) : Str → Option Char → Bool
  | [], prev => wwAt n [] prev
  | c :: cs, prev => wwAt n (c :: cs) prev || wwFind n cs (some c)

/-- Suffix of `s` after the first colon (Python `s.split(':', 1)[1]`);
`none` when `s` has no colon. -/
def afterColon : Str → Option Str
  | [] => none
  | c :: cs => if c == ':' then some cs else afterColon cs

/-- Embedding of `_shortcut_appears_in_text` (src/app/utils.py lines 166-178):
false on empty shortcut or empty text (Python truthiness guard), otherwise a
case-insensitive substring search for the whole shortcut, falling back, when
the shortcut has a colon, to a whole-word search for its bare suffix. -/
def shortcut_appears_in_text (shortcut text : Str) : Bool :=
  if shortcut.isEmpty || text.isEmpty then false
  else if ciFind shortcut text then true
  else
    match afterColon shortcut with
    | none => false
    | some suffix => wwFind suffix text none

/-! Spec-side predicates, written from the specification's words
("case-insensitive, exact substring", "word-boundary-delimited,
case-insensitive whole word"), to be compared with the source embedding. -/

/-- Spec predicate: `n` appears somewhere in `t` as a case-insensitive substring. -/
def CIInfix (n t : Str) : Prop :=
  ∃ pre mid post, t = pre ++ mid ++ post ∧ lowerStr mid = lowerStr n

/-- Helper for stating word boundaries under a decomposition: the character
just before a position, defaulting to `prev` when the prefix is empty. -/
def lastFrom (prev : Option Char) : Str → Option Char
  | [] => prev
  | c :: cs => lastFrom (some c) cs

/-- Spec predicate, generalized over the character preceding the subject:
`n` occurs in `t` as a word-boundary-delimited, case-insensitive whole word. -/
def WholeWordFrom (prev : Option Char) (n t : Str) : Prop :=
  ∃ pre mid post, t = pre ++ mid ++ post ∧ lowerStr mid = lowerStr n ∧
    bdry (lastFrom prev pre) (hdO (mid ++ post)) = true ∧
    bdry (lastFrom prev (pre ++ mid)) (hdO post) = true

/-- Spec predicate: `n` appears in `t` as a word-boundary-delimited,
case-insensitive whole word. -/
def WholeWord (n t : Str) : Prop := WholeWordFrom none n t

/-! Embedding of `ground_llm_results_to_text` (src/app/utils.py lines 181-226).
BeautifulSoup's parse is an off-the-shelf capability the spec puts outside the
core, so a category's HTML input is modelled as its raw string together with
the list of `<a>` elements (link text and href) the parse yields; the regex
filters applied to that list are embedded from the source. -/

/-- Python whitespace characters (`\s`, `str.strip`, ASCII range). -/
def pyWs (c : Char) : Bool :=
  c == ' ' || c == '\t' || c == '\n' || c == '\r' || c == Char.ofNat 11 || c == Char.ofNat 12

/-- Python `str.strip()`. -/
def pyStrip (s : Str) : Str := ((s.dropWhile pyWs).reverse.dropWhile pyWs).reverse

/-- Python `html.escape` (quote=True) for one character. -/
def escChar (c : Char) : Str :=
  if c = '&' then "&amp;".toList
  else if c = '<' then "&lt;".toList
  else if c = '>' then "&gt;".toList
  else if c = '"' then "&quot;".toList
  else if c = Char.ofNat 39 then "&#x27;".toList
  else [c]

/-- Python `html.escape(s, quote=True)`: the chained `str.replace` calls of the
library function amount to this character-wise expansion (`&` is replaced
first, so later replacements never touch inserted entities). -/
def htmlEscape : Str → Str
  | [] => []
  | c :: cs => escChar c ++ htmlEscape cs

/-- Case-sensitive literal substring search (a `re.search` whose pattern is an
escaped literal and no flags). -/
def litFind (n : Str) : Str → Bool
  | [] => n.isEmpty
  | c :: cs => n.isPrefixOf (c :: cs) || litFind n cs

/-- One `<a>` element of a parsed HTML fragment: its text and href attribute. -/
structure Anchor where
  txt : Str
  href : Str
deriving DecidableEq

/-- One category input: the raw HTML string and the `<a href=...>` elements its
parse contains, in document order (the parse itself is a modelled capability). -/
structure CatInput where
  raw : Str
  anchors : List Anchor
deriving DecidableEq

/-- Embedding of `re.match(r'(WP:[A-Z0-9]+|MOS:[A-Za-z0-9]+)', t)` used by the
grounding pass: anchored at the start, first alternative first, greedy body. -/
def matchWPMOS_ground (t : Str) : Option Str :=
  if "WP:".toList.isPrefixOf t ∧ (t.drop 3).takeWhile (fun c => c.isUpper || c.isDigit) ≠ [] then
    some ("WP:".toList ++ (t.drop 3).takeWhile (fun c => c.isUpper || c.isDigit))
  else if "MOS:".toList.isPrefixOf t ∧ (t.drop 4).takeWhile (fun c => c.isAlpha || c.isDigit) ≠ [] then
    some ("MOS:".toList ++ (t.drop 4).takeWhile (fun c => c.isAlpha || c.isDigit))
  else none

/-- The anchors `find_all('a', href=re.compile(r'wikipedia\.org/wiki/Wikipedia:'))`
keeps: those whose href contains the literal pattern. -/
def candAnchors (c : CatInput) : List Anchor :=
  c.anchors.filter (fun a => litFind "wikipedia.org/wiki/Wikipedia:".toList a.href)

/-- The `grounded` set collected over the three categories (utils.py 192-202):
shortcuts matched at the start of a candidate link's text that appear in the
discussion text. -/
def groundedOf (p g e : CatInput) (text : Str) : List Str :=
  ((candAnchors p ++ candAnchors g ++ candAnchors e).filterMap
    (fun a => matchWPMOS_ground a.txt)).filter
    (fun s => shortcut_appears_in_text s text)

/-- Python `", ".join`. -/
def joinSep (sep : Str) : List Str → Str
  | [] => []
  | [x] => x
  | x :: y :: rest => x ++ sep ++ joinSep sep (y :: rest)

/-- The rebuilt link markup for one grounded anchor (utils.py line 212). -/
def mkGroundedLink (a : Anchor) : Str :=
  "<a href=\"".toList ++ a.href ++ "\" target=\"_blank\">".toList ++
    htmlEscape a.txt ++ "</a>".toList

/-- Embedding of `rebuild_html_grounded_only` (utils.py lines 204-215). -/
def rebuildCat (c : CatInput) (grounded : List Str) : Str :=
  let links := (candAnchors c).filterMap (fun a =>
    match matchWPMOS_ground a.txt with
    | some s => if s ∈ grounded then some (mkGroundedLink a) else none
    | none => none)
  if links.isEmpty then [] else "<p>".toList ++ joinSep ", ".toList links ++ "</p>".toList

/-- Embedding of `re.search(r'<a\s', html)`: the literal `<a` followed by one
whitespace character, anywhere in the raw string. -/
def hasOpenAnchorWs : Str → Bool
  | '<' :: 'a' :: d :: rest => pyWs d || hasOpenAnchorWs ('a' :: d :: rest)
  | _ :: rest => hasOpenAnchorWs rest
  | [] => false

/-- The category-level fallback message (utils.py line 221). -/
def emptyMsg : Str := "<p class=\"empty-result\">None found in this discussion.</p>".toList

/-- The per-category output rule of `ground_llm_results_to_text`: the rebuilt
grounded links if any, else the fallback message when the raw HTML contains
`<a` + whitespace, else the raw HTML unchanged. -/
def groundOut (grounded : List Str) (c : CatInput) : Str :=
  let o := rebuildCat c grounded
  if o.isEmpty then (if hasOpenAnchorWs c.raw then emptyMsg else c.raw) else o

/-- Embedding of `ground_llm_results_to_text` (utils.py lines 181-226). -/
def ground_llm_results_to_text (p g e : CatInput) (discussion_text : Option Str) :
    Str × Str × Str :=
  let text := pyStrip (discussion_text.getD [])
  let grounded := groundedOf p g e text
  (groundOut grounded p, groundOut grounded g, groundOut grounded e)

/-! Embedding of the grounding, sentence-association and id-assignment kernel
of `add_highlighting_to_llm_results` (src/app/utils.py lines 276-291). -/

/-- Sentence-level grounding of one shortcut (utils.py lines 277-281): some
sentence contains the shortcut case-insensitively, or the shortcut has a colon
and some sentence contains its bare suffix as a whole word. -/
def sentenceGrounded (sts : List Str) (s : Str) : Bool :=
  sts.any (fun st => ciFind s st) ||
  (match afterColon s with
   | none => false
   | some suf => sts.any (fun st => wwFind suf st none))

/-- Sentence ids computed for one shortcut (utils.py line 290): indices of the
sentences containing the shortcut case-insensitively — substring match only. -/
def sentence_ids_for (sts : List Str) (s : Str) : List Nat :=
  (sts.enum.filter (fun q => ciFind s q.2)).map Prod.fst

/-- The claim's matching rule: the full two-tier logic used for grounding
(case-insensitive substring, or bare suffix as a whole word), per sentence. -/
def matchesFullLogic (s st : Str) : Bool :=
  ciFind s st ||
  (match afterColon s with
   | none => false
   | some suf => wwFind suf st none)

/-- Decimal digits, with explicit fuel so the recursion is structural; with
fuel at least the number itself the fallback is never reached. -/
def natStrAux : Nat → Nat → Str
  | 0, n => [Nat.digitChar n]
  | fuel + 1, n =>
    if n < 10 then [Nat.digitChar n]
    else natStrAux fuel (n / 10) ++ [Nat.digitChar (n % 10)]

/-- Decimal digits of a natural number (Python `f"{idx}"`). -/
def natStr (n : Nat) : Str := natStrAux n n

/-- The id string `f"highlight-{idx}"`. -/
def highlightIdOf (k : Nat) : Str := "highlight-".toList ++ natStr k

/-- The distinct grounded shortcuts in Python's `sorted` order (utils.py line
286): `sorted(grounded_shortcuts)` over the set of candidate shortcuts that
survive sentence-level grounding. -/
def sortedGrounded (cands sts : List Str) : List Str :=
  List.insertionSort (· ≤ ·) (cands.dedup.filter (sentenceGrounded sts))

/-- The `shortcut_to_id` assignment (utils.py lines 284-288): the k-th distinct
grounded shortcut in sorted order is paired with `highlight-k`. -/
def shortcut_to_id_list (cands sts : List Str) : List (Str × Str) :=
  (sortedGrounded cands sts).enum.map (fun q => (q.2, highlightIdOf q.1))

/-! Concrete inputs used by counterexamples and witnesses. -/

def emptyCat : CatInput := ⟨[], []⟩

/-- A category whose HTML holds one anchor that is not a candidate (its href
is not a Wikipedia policy link), as BeautifulSoup would parse it. -/
def cexCatC2 : CatInput :=
  ⟨"<a href=\"https://en.wikipedia.org/wiki/Foo\">x</a>".toList,
   [⟨"x".toList, "https://en.wikipedia.org/wiki/Foo".toList⟩]⟩

/-- A category whose HTML holds one non-candidate anchor (an external link). -/
def cexCatC6 : CatInput :=
  ⟨"<p><a href=\"https://example.com/\">y</a></p>".toList,
   [⟨"y".toList, "https://example.com/".toList⟩]⟩

/-! Embedding of the HTML tree walked by `_get_text_segments` (src/app/utils.py
lines 12-25).  A parsed document is a list of nodes; a node is a text node (a
`NavigableString`, holding its raw characters, not entity-encoded) or an
element with tag, attributes and children.  `descendants` visits text nodes in
document order. -/

inductive Node where
  | txt : Str → Node
  | elem : Str → List (Str × Str) → List Node → Node

mutual

/-- The raw strings of the text nodes below one node, in document order. -/
def textNodesN : Node → List Str
  | .txt s => [s]
  | .elem _ _ cs => textNodesL cs

/-- The raw strings of the text nodes of a forest, in document order. -/
def textNodesL : List Node → List Str
  | [] => []
  | n :: ns => textNodesN n ++ textNodesL ns

end

/-- The document's full flattened text. -/
def flattenedText (doc : List Node) : Str := (textNodesL doc).flatten

/-- The running-offset segment builder of `_get_text_segments`: empty text
nodes are skipped, each retained node is recorded with its start and end
offsets into the flattened text. -/
def segmentsFrom (cur : Nat) : List Str → List (Str × Nat × Nat)
  | [] => []
  | s :: rest =>
    if s = [] then segmentsFrom cur rest
    else (s, cur, cur + s.length) :: segmentsFrom (cur + s.length) rest

/-- Embedding of `_get_text_segments` (utils.py lines 12-25). -/
def _get_text_segments (doc : List Node) : List (Str × Nat × Nat) :=
  segmentsFrom 0 (textNodesL doc)

/-- Checks that a segment list is contiguous from `cur`: each segment starts
where the previous one ended, its end is start plus its text's length, and its
text is nonempty. -/
def contigFrom (cur : Nat) : List (Str × Nat × Nat) → Bool
  | [] => true
  | (s, a, b) :: rest =>
    (a == cur) && (b == a + s.length) && !(s.isEmpty) && contigFrom b rest

/-! Embedding of `chunk_text` (src/analyzers/openai_analyzer.py lines 34-83).
The while loop is embedded with explicit fuel, returning `none` when the fuel
runs out; the termination claim for the default parameters is the statement
that enough fuel makes it return `some`.  Offsets are `Nat`; with the default
parameters every subtraction in the source stays non-negative (`end ≥ 2801 >
overlap = 300`, `end0 - 200 ≥ 0`), so `Nat` truncation agrees with Python's
`int` arithmetic there. -/

/-- Python `s[a:b]` for `0 ≤ a ≤ b` (out-of-range ends clamp). -/
def sliceStr (s : Str) (a b : Nat) : Str := (s.drop a).take (b - a)

/-- Does `sub` occur in `s` at position `i`? -/
def occursAtLit (sub s : Str) (i : Nat) : Bool := ((s.drop i).take sub.length) == sub

/-- Downward scan for Python `s.rfind(sub, a, b)` (with `lim = min b (len s)`):
the highest position `i ≤ k` with `a ≤ i`, `i + len sub ≤ lim` and a match,
or -1. -/
def rfindFrom (sub s : Str) (a lim : Nat) : Nat → Int
  | 0 => if a = 0 ∧ sub.length ≤ lim ∧ occursAtLit sub s 0 then 0 else -1
  | k + 1 =>
    if a ≤ k + 1 ∧ (k + 1) + sub.length ≤ lim ∧ occursAtLit sub s (k + 1) then ((k : Int) + 1)
    else rfindFrom sub s a lim k

/-- Python `s.rfind(sub, a, b)`. -/
def rfindIn (sub s : Str) (a b : Nat) : Int :=
  rfindFrom sub s a (min b s.length) (min b s.length)

def max4 (a b c d : Int) : Int := max (max a b) (max c d)

/-- The end position chosen for the chunk starting at `start` (openai_analyzer
lines 53-69): `start + maxC`, moved back to just after the latest sentence or
paragraph break found in the last 200 characters of the chunk, when the chunk
does not already reach the end of the text. -/
def chunkEndOf (text : Str) (maxC start : Nat) : Nat :=
  let end0 := start + maxC
  if end0 < text.length then
    let searchStart := max (end0 - 200) start
    let se := max4 (rfindIn ". ".toList text searchStart end0)
                   (rfindIn "! ".toList text searchStart end0)
                   (rfindIn "? ".toList text searchStart end0)
                   (rfindIn "\n\n".toList text searchStart end0)
    if (start : Int) < se then se.toNat + 1 else end0
  else end0

/-- One loop body step: the stripped chunk `text[start:end].strip()` is
appended unless empty (openai_analyzer lines 71-74). -/
def chunkAccStep (text : Str) (maxC start : Nat) (acc : List Str) : List Str :=
  if pyStrip (sliceStr text start (chunkEndOf text maxC start)) = [] then acc
  else acc ++ [pyStrip (sliceStr text start (chunkEndOf text maxC start))]

/-- The while loop of `chunk_text`, with fuel: after each chunk the start
moves to `end - overlap`, stopping as soon as it reaches the text's length. -/
def chunkLoop (text : Str) (maxC ov : Nat) : Nat → Nat → List Str → Option (List Str)
  | 0, _, _ => none
  | fuel + 1, start, acc =>
    if text.length ≤ chunkEndOf text maxC start - ov then
      some (chunkAccStep text maxC start acc)
    else
      chunkLoop text maxC ov fuel (chunkEndOf text maxC start - ov)
        (chunkAccStep text maxC start acc)

/-- Embedding of `chunk_text` (openai_analyzer.py lines 34-83). -/
def chunk_text (text : Str) (maxC ov : Nat) : Option (List Str) :=
  if text.length ≤ maxC then some [text]
  else chunkLoop text maxC ov (text.length + 1) 0 []

/-- `chunk_text` with its default parameters (3000, 300). -/
def chunkTextDefault (text : Str) : Option (List Str) := chunk_text text 3000 300

/-! Embedding of the two wrapping passes relevant to C8 and C9.  Re-parsing a
produced fragment with `BeautifulSoup(..., 'html.parser')` is an external
capability; `fragTextAux` models the text content that parse recovers from the
fragments these passes build: characters between `<` and `>` form markup and
contribute no text, the five entity references `html.escape` can produce are
decoded, and any other character (including a stray `&` that starts no valid
reference, which html.parser keeps) passes through unchanged. -/

def fragTextAux : Bool → Str → Str
  | _, [] => []
  | true, c :: rest => if c = '>' then fragTextAux false rest else fragTextAux true rest
  | false, '&' :: 'a' :: 'm' :: 'p' :: ';' :: rest => '&' :: fragTextAux false rest
  | false, '&' :: 'l' :: 't' :: ';' :: rest => '<' :: fragTextAux false rest
  | false, '&' :: 'g' :: 't' :: ';' :: rest => '>' :: fragTextAux false rest
  | false, '&' :: 'q' :: 'u' :: 'o' :: 't' :: ';' :: rest => '"' :: fragTextAux false rest
  | false, '&' :: '#' :: 'x' :: '2' :: '7' :: ';' :: rest =>
    Char.ofNat 39 :: fragTextAux false rest
  | false, c :: rest => if c = '<' then fragTextAux true rest else c :: fragTextAux false rest

/-- The text content the re-parse of a fragment yields. -/
def fragTextOf (s : Str) : Str := fragTextAux false s

/-- The opening-tag body (between `<` and `>`) of the sentence span built at
utils.py line 69. -/
def sentOpenBody (idx : Nat) : Str :=
  "span id=\"sent-".toList ++ natStr idx ++ "\" class=\"sentence\"".toList

def spanClose : Str := "</span>".toList

/-- The sentence-span markup of utils.py line 69:
`<span id="sent-{idx}" class="sentence">{html.escape(chunk)}</span>`. -/
def sentSpanMarkup (idx : Nat) (chunk : Str) : Str :=
  '<' :: (sentOpenBody idx ++ '>' :: (htmlEscape chunk ++ spanClose))

/-- The opening markup of the highlight span of utils.py lines 302-303. -/
def policySpanOpen (hid : Str) : Str :=
  "<span id=\"".toList ++ hid ++ "\" class=\"policy-mention\">".toList

/-- Leftmost case-insensitive occurrence of `n` in `t`, split as
(before, matched, after). -/
def splitFirstCI (n : Str) : Str → Option (Str × Str × Str)
  | [] => if ciPrefixAt n [] then some ([], [], []) else none
  | c :: cs =>
    if ciPrefixAt n (c :: cs) then some ([], (c :: cs).take n.length, (c :: cs).drop n.length)
    else
      match splitFirstCI n cs with
      | some (p, m, q) => some (c :: p, m, q)
      | none => none

/-- The highlight pass's per-node rewrite (utils.py lines 299-306):
`pattern.sub(f'<span id="{hid}" class="policy-mention">\1</span>', text,
count=1)` — the first case-insensitive occurrence is wrapped, and the rest of
the node's raw text is re-inserted with no escaping. -/
def wrapFirstCI (hid n t : Str) : Str :=
  match splitFirstCI n t with
  | none => t
  | some (p, m, q) => p ++ policySpanOpen hid ++ m ++ spanClose ++ q

/-- The highlight markup of `add_highlight_ids` (utils.py lines 112-115):
`<span id="highlight-{idx}" class="policy-mention">{shortcut}</span>`. -/
def policyMentionMarkup (idx : Nat) (shortcut : Str) : Str :=
  "<span id=\"highlight-".toList ++ natStr idx ++
    "\" class=\"policy-mention\">".toList ++ shortcut ++ "</span>".toList

/-- Python `str.replace(old, new)` — every non-overlapping occurrence, left to
right.  The fuel (the subject's length) makes the recursion structural; it is
never exhausted for nonempty `old`, which is the only way the source calls it. -/
def replaceAllAux (old new : Str) : Nat → Str → Str
  | _, [] => []
  | 0, s => s
  | fuel + 1, c :: cs =>
    if old.isPrefixOf (c :: cs) then
      new ++ replaceAllAux old new fuel ((c :: cs).drop old.length)
    else c :: replaceAllAux old new fuel cs

def pyReplaceAll (s old new : Str) : Str :=
  if old = [] then s else replaceAllAux old new s.length s

/-- One item's pass of `add_highlight_ids` (utils.py lines 107-123): among the
text nodes (in document order) the first whose raw text contains the shortcut
(case-sensitively) is rewritten by `node.replace`, which wraps every
occurrence inside that node; the loop then breaks.  The replaced fragment is
kept as its flat markup string (its re-parse is deferred to `fragTextOf`). -/
def applyItem (idx : Nat) (shortcut : Str) : List Str → List Str
  | [] => []
  | node :: rest =>
    if litFind shortcut node then
      pyReplaceAll node shortcut (policyMentionMarkup idx shortcut) :: rest
    else node :: applyItem idx shortcut rest

def addHighlightIdsAux (doc : List Str) (idx : Nat) : List (Option Str) → List Str
  | [] => doc
  | item :: rest =>
    match item with
    | none => addHighlightIdsAux doc (idx + 1) rest
    | some shortcut =>
      if shortcut = [] then addHighlightIdsAux doc (idx + 1) rest
      else addHighlightIdsAux (applyItem idx shortcut doc) (idx + 1) rest

/-- Embedding of `add_highlight_ids` (utils.py lines 88-125) over the
discussion's text nodes, with `items` the candidates' optional shortcuts
(`item.get('shortcut')`, falsy values skipped). -/
def add_highlight_ids (doc : List Str) (items : List (Option Str)) : List Str :=
  addHighlightIdsAux doc 0 items

/-- Number of (possibly overlapping) occurrences of `n` in a string. -/
def countOcc (n : Str) : Str → Nat
  | [] => 0
  | c :: cs => (if n.isPrefixOf (c :: cs) then 1 else 0) + countOcc n cs

/-! Embedding of `add_sentence_spans_to_html` (src/app/utils.py lines 28-85)
at the tree level: the function parses the discussion, collects text segments,
splits the flattened text into sentence offset spans, and for each text node
replaces it by alternating escaped gap text and sentence-span wrappers; the
escape-then-reparse of the built fragment recovers the raw characters (the
fact proved for C8), so the parsed fragment is a list of raw text nodes and
span elements. -/

/-- Modelled from the spec: `split_into_sentences_with_offsets` is imported
from `analyzers/context_extractor.py`, which is not among the provided
sources.  Spec section 4.1: a boundary follows a terminal punctuation mark
(`.`, `!`, `?`) when followed by whitespace, or sits at a paragraph break (two
consecutive newlines); an absence of boundaries leaves the whole text as one
span; reported span texts are trimmed of surrounding whitespace with the
span's stored offsets adjusted to the trimmed sub-range, and spans that trim
to nothing are dropped; the empty text yields no spans. -/
def isTermPunct (c : Char) : Bool := c == '.' || c == '!' || c == '?'

/-- Is the next character (head of the rest) whitespace? -/
def nextWs : Str → Bool
  | [] => false
  | d :: _ => pyWs d

/-- Is the next character a newline? -/
def nextNl : Str → Bool
  | [] => false
  | d :: _ => d == '\n'

/-- Raw (untrimmed) sentence spans of the text from index `i` on, the current
span having started at `st`. -/
def rawSpans : Nat → Nat → Str → List (Nat × Nat)
  | i, st, [] => if st < i then [(st, i)] else []
  | i, st, c :: cs =>
    if isTermPunct c && nextWs cs then (st, i + 1) :: rawSpans (i + 1) (i + 1) cs
    else if c == '\n' && nextNl cs then
      (if st < i then [(st, i)] else []) ++ rawSpans (i + 1) (i + 1) cs
    else rawSpans (i + 1) st cs

/-- Trim a raw span `[a, b)` of `t`: the trimmed sub-range's own offsets and
its text; `none` when nothing but whitespace remains. -/
def trimSpanIn (t : Str) (a b : Nat) : Option (Nat × Nat × Str) :=
  if pyStrip (sliceStr t a b) = [] then none
  else some (a + ((sliceStr t a b).takeWhile pyWs).length,
             a + ((sliceStr t a b).takeWhile pyWs).length + (pyStrip (sliceStr t a b)).length,
             pyStrip (sliceStr t a b))

/-- Modelled from the spec (section 4.1): sentence spans with offsets, as
`(start, end, sentence text)` triples. -/
def split_into_sentences_with_offsets (t : Str) : List (Nat × Nat × Str) :=
  (rawSpans 0 0 t).filterMap (fun q => trimSpanIn t q.1 q.2)

/-- One sentence offset entry as used while wrapping: (index, start, end). -/
abbrev SentOff := Nat × Nat × Nat

/-- The overlapping-span parts collected for one segment (utils.py lines
62-69): `(rel_start, rel_end, sentence index)`, with the source's
`max(0, s_start - seg_start)` and `min(len(seg_text), s_end - seg_start)`
projections (truncated subtraction is that `max`). -/
def buildParts (segStart segLen : Nat) : List SentOff → List (Nat × Nat × Nat)
  | [] => []
  | (idx, s, e) :: rest =>
    if segStart + segLen ≤ s ∨ e ≤ segStart then buildParts segStart segLen rest
    else (s - segStart, min segLen (e - segStart), idx) :: buildParts segStart segLen rest

/-- The source's stable `parts.sort(key=lambda p: p[0])`. -/
def sortParts (parts : List (Nat × Nat × Nat)) : List (Nat × Nat × Nat) :=
  List.insertionSort (fun x y => x.1 ≤ y.1) parts

/-- The parsed form of the sentence-span markup of utils.py line 69: a span
element with the id and class attributes holding the chunk as its text (the
escape-then-reparse recovers the raw chunk, as proved for C8). -/
def wrapNode (idx : Nat) (chunk : Str) : Node :=
  Node.elem "span".toList
    [("id".toList, "sent-".toList ++ natStr idx), ("class".toList, "sentence".toList)]
    [Node.txt chunk]

/-- The replacement node list for one segment (utils.py lines 73-82): escaped
gap text before each part, the wrapped chunk, and the escaped suffix. -/
def assembleParts (segText : Str) (pos : Nat) : List (Nat × Nat × Nat) → List Node
  | [] => if pos < segText.length then [Node.txt (sliceStr segText pos segText.length)] else []
  | (rs, re, idx) :: rest =>
    (if pos < rs then [Node.txt (sliceStr segText pos rs)] else []) ++
      wrapNode idx (sliceStr segText rs re) :: assembleParts segText re rest

/-- The replacement for one nonempty text node whose segment starts at `cur`
(utils.py lines 57-83): untouched when no sentence span overlaps it. -/
def rewrittenText (offs : List SentOff) (s : Str) (cur : Nat) : List Node :=
  if (sortParts (buildParts cur s.length offs)).isEmpty then [Node.txt s]
  else assembleParts s 0 (sortParts (buildParts cur s.length offs))

/-- The wrapping pass over the tree, threading the running text offset in
document order (empty text nodes are skipped and advance nothing, as in
`_get_text_segments`). -/
def rewriteNodes (offs : List SentOff) : List Node → Nat → List Node × Nat
  | [], cur => ([], cur)
  | Node.txt s :: rest, cur =>
    if s.isEmpty then
      (Node.txt s :: (rewriteNodes offs rest cur).1, (rewriteNodes offs rest cur).2)
    else
      (rewrittenText offs s cur ++ (rewriteNodes offs rest (cur + s.length)).1,
        (rewriteNodes offs rest (cur + s.length)).2)
  | Node.elem tag attrs cs :: rest, cur =>
    (Node.elem tag attrs (rewriteNodes offs cs cur).1 ::
        (rewriteNodes offs rest (rewriteNodes offs cs cur).2).1,
      (rewriteNodes offs rest (rewriteNodes offs cs cur).2).2)

/-- Embedding of `add_sentence_spans_to_html` (utils.py lines 28-85) at tree
level: with no text segments, or no sentence spans, the input is returned
unchanged with an empty sentence list; otherwise each text node is rewritten
and the trimmed sentence texts are returned. -/
def add_sentence_spans (doc : List Node) : List Node × List Str :=
  if (_get_text_segments doc).isEmpty then (doc, [])
  else if (split_into_sentences_with_offsets (flattenedText doc)).isEmpty then (doc, [])
  else
    ((rewriteNodes
        ((split_into_sentences_with_offsets (flattenedText doc)).enum.map
          (fun q => (q.1, q.2.1, q.2.2.1)))
        doc 0).1,
      (split_into_sentences_with_offsets (flattenedText doc)).map (fun q => q.2.2))

/-- A node the wrapping pass may produce inside a rewritten text node: a raw
text run or one sentence-span wrapper. -/
inductive OkPart : Node → Prop
  | txt (s : Str) : OkPart (Node.txt s)
  | wrap (idx : Nat) (chunk : Str) : OkPart (wrapNode idx chunk)

/-- The frame relation of C7: the output is the input with each text node
replaced by text runs and sentence-span wrappers that together carry exactly
the original characters, while every element keeps its tag, its attributes
and the relation on its children; nothing else changes. -/
inductive SimL : List Node → List Node → Prop
  | nil : SimL [] []
  | txt (s : Str) (ns rest rest2 : List Node) :
      (∀ n ∈ ns, OkPart n) → (textNodesL ns).flatten = s →
      SimL rest rest2 → SimL (Node.txt s :: rest) (ns ++ rest2)
  | elem (tag : Str) (attrs : List (Str × Str)) (cs cs2 rest rest2 : List Node) :
      SimL cs cs2 → SimL rest rest2 →
      SimL (Node.elem tag attrs cs :: rest) (Node.elem tag attrs cs2 :: rest2)

/-- Chain invariant on enumerated sentence offsets: starts at or after `lo`,
each span nonempty, spans in order without overlap. -/
def OffChain : Nat → List SentOff → Prop
  | _, [] => True
  | lo, (_, s, e) :: rest => lo ≤ s ∧ s < e ∧ OffChain e rest

/-- Chain invariant on raw span pairs. -/
def pairChain : Nat → List (Nat × Nat) → Prop
  | _, [] => True
  | lo, (a, b) :: rest => lo ≤ a ∧ a < b ∧ pairChain b rest

/-- Chain invariant on trimmed spans. -/
def trimChain : Nat → List (Nat × Nat × Str) → Prop
  | _, [] => True
  | lo, (a, b, _) :: rest => lo ≤ a ∧ a < b ∧ trimChain b rest

/-- Chain invariant on a segment's parts: each part starts at or after the
running position and ends no earlier than it starts. -/
def PartsChain : Nat → List (Nat × Nat × Nat) → Prop
  | _, [] => True
  | pos, (rs, re, _) :: rest => pos ≤ rs ∧ rs ≤ re ∧ PartsChain re rest

/-- The sentence list of the C3 counterexample: one sentence mentioning the
bare suffix DUE but never the full shortcut. -/
def stsC3 : List Str := ["this seems like a DUE issue.".toList]

theorem lowerStr_nil_iff {s : Str} : lowerStr s = [] ↔ s = [] := by
  cases s <;> simp [lowerStr]

theorem lowerStr_length (s : Str) : (lowerStr s).length = s.length := by
  simp [lowerStr]

theorem ciPrefixAt_iff (n : Str) : ∀ t : Str,
    ciPrefixAt n t = true ↔ ∃ mid post, t = mid ++ post ∧ lowerStr mid = lowerStr n := by
  induction n with
  | nil =>
    intro t
    constructor
    · intro _
      exact ⟨[], t, rfl, rfl⟩
    · intro _
      cases t <;> simp [ciPrefixAt]
  | cons a as ih =>
    intro t
    cases t with
    | nil =>
      simp only [ciPrefixAt]
      constructor
      · intro h; cases h
      · rintro ⟨mid, post, h1, h2⟩
        rcases List.append_eq_nil.mp h1.symm with ⟨hm, _⟩
        subst hm
        simp [lowerStr] at h2
    | cons b bs =>
      simp only [ciPrefixAt, Bool.and_eq_true, beq_iff_eq]
      constructor
      · rintro ⟨hab, hrest⟩
        rcases (ih bs).mp hrest with ⟨mid, post, h1, h2⟩
        exact ⟨b :: mid, post, by simp [h1], by simp [lowerStr] at h2 ⊢; exact ⟨hab.symm, h2⟩⟩
      · rintro ⟨mid, post, h1, h2⟩
        cases mid with
        | nil => simp [lowerStr] at h2
        | cons m ms =>
          simp only [List.cons_append, List.cons.injEq] at h1
          rcases h1 with ⟨hbm, hbs⟩
          subst hbm
          simp only [lowerStr, List.map_cons, List.cons.injEq] at h2
          exact ⟨h2.1.symm, (ih bs).mpr ⟨ms, post, hbs, h2.2⟩⟩

theorem ciFind_iff (n : Str) : ∀ t : Str, ciFind n t = true ↔ CIInfix n t := by
  intro t
  induction t with
  | nil =>
    simp only [ciFind, CIInfix]
    rw [ciPrefixAt_iff]
    constructor
    · rintro ⟨mid, post, h1, h2⟩
      exact ⟨[], mid, post, by simp [h1], h2⟩
    · rintro ⟨pre, mid, post, h1, h2⟩
      rcases List.append_eq_nil.mp h1.symm with ⟨hpm, hq⟩
      rcases List.append_eq_nil.mp hpm with ⟨hp, hm⟩
      exact ⟨mid, post, by simp [hm, hq], h2⟩
  | cons c cs ih =>
    simp only [ciFind, Bool.or_eq_true]
    constructor
    · rintro (h | h)
      · rcases (ciPrefixAt_iff n _).mp h with ⟨mid, post, h1, h2⟩
        exact ⟨[], mid, post, by simp [h1], h2⟩
      · rcases ih.mp h with ⟨pre, mid, post, h1, h2⟩
        exact ⟨c :: pre, mid, post, by simp [h1], h2⟩
    · rintro ⟨pre, mid, post, h1, h2⟩
      cases pre with
      | nil =>
        left
        exact (ciPrefixAt_iff n _).mpr ⟨mid, post, by simpa using h1, h2⟩
      | cons p ps =>
        right
        simp only [List.cons_append, List.cons.injEq] at h1
        exact ih.mpr ⟨ps, mid, post, h1.2, h2⟩

theorem lastFrom_nonempty (x : Char) (xs : Str) : ∀ prev,
    lastFrom prev (x :: xs) = (x :: xs).getLast? := by
  induction xs generalizing x with
  | nil => intro prev; simp [lastFrom]
  | cons y ys ih =>
    intro prev
    show lastFrom (some x) (y :: ys) = _
    rw [ih y (some x), List.getLast?_cons_cons]

theorem wwAt_iff (n t : Str) (prev : Option Char) :
    wwAt n t prev = true ↔
      ∃ mid post, t = mid ++ post ∧ lowerStr mid = lowerStr n ∧
        bdry prev (hdO t) = true ∧ bdry (lastFrom prev mid) (hdO post) = true := by
  cases n with
  | nil =>
    simp only [wwAt, Bool.and_eq_true]
    constructor
    · rintro ⟨⟨_, hb⟩, hb2⟩
      exact ⟨[], t, rfl, rfl, hb, hb2⟩
    · rintro ⟨mid, post, h1, h2, hb, hb2⟩
      have hm : mid = [] := lowerStr_nil_iff.mp h2
      subst hm
      simp only [List.nil_append] at h1
      subst h1
      exact ⟨⟨rfl, hb⟩, hb2⟩
  | cons a as =>
    simp only [wwAt, Bool.and_eq_true]
    constructor
    · rintro ⟨⟨hp, hb⟩, hb2⟩
      rcases (ciPrefixAt_iff (a :: as) t).mp hp with ⟨mid, post, h1, h2⟩
      have hlen : mid.length = (a :: as).length := by
        have := congrArg List.length h2
        simpa [lowerStr_length] using this
      have hmid : t.take (a :: as).length = mid := by
        rw [h1, ← hlen, List.take_left]
      have hpost : t.drop (a :: as).length = post := by
        rw [h1, ← hlen, List.drop_left]
      refine ⟨mid, post, h1, h2, hb, ?_⟩
      rcases List.exists_cons_of_ne_nil
        (show mid ≠ [] by intro hm; rw [hm] at hlen; simp at hlen) with ⟨x, xs, hx⟩
      rw [hx, lastFrom_nonempty, ← hx, ← hmid, ← hpost]
      exact hb2
    · rintro ⟨mid, post, h1, h2, hb, hb2⟩
      have hlen : mid.length = (a :: as).length := by
        have := congrArg List.length h2
        simpa [lowerStr_length] using this
      have hp : ciPrefixAt (a :: as) t = true :=
        (ciPrefixAt_iff (a :: as) t).mpr ⟨mid, post, h1, h2⟩
      refine ⟨⟨hp, hb⟩, ?_⟩
      have hmid : t.take (a :: as).length = mid := by
        rw [h1, ← hlen, List.take_left]
      have hpost : t.drop (a :: as).length = post := by
        rw [h1, ← hlen, List.drop_left]
      rcases List.exists_cons_of_ne_nil
        (show mid ≠ [] by intro hm; rw [hm] at hlen; simp at hlen) with ⟨x, xs, hx⟩
      rw [hmid, hpost, hx, ← lastFrom_nonempty x xs prev, ← hx]
      exact hb2

theorem wwFind_iff (n : Str) : ∀ (t : Str) (prev : Option Char),
    wwFind n t prev = true ↔ WholeWordFrom prev n t := by
  intro t
  induction t with
  | nil =>
    intro prev
    simp only [wwFind, WholeWordFrom]
    rw [wwAt_iff]
    constructor
    · rintro ⟨mid, post, h1, h2, hb, hb2⟩
      exact ⟨[], mid, post, by simp [h1], h2, by simpa [h1, lastFrom] using hb,
        by simpa [lastFrom] using hb2⟩
    · rintro ⟨pre, mid, post, h1, h2, hb, hb2⟩
      rcases List.append_eq_nil.mp h1.symm with ⟨hpm, hq⟩
      rcases List.append_eq_nil.mp hpm with ⟨hp, hm⟩
      subst hp; subst hm; subst hq
      refine ⟨[], [], rfl, h2, ?_, ?_⟩
      · simpa [lastFrom] using hb
      · simpa [lastFrom] using hb2
  | cons c cs ih =>
    intro prev
    simp only [wwFind, Bool.or_eq_true]
    constructor
    · rintro (h | h)
      · rcases (wwAt_iff n (c :: cs) prev).mp h with ⟨mid, post, h1, h2, hb, hb2⟩
        exact ⟨[], mid, post, by simpa using h1, h2, by simpa [lastFrom, ← h1] using hb,
          by simpa [lastFrom] using hb2⟩
      · rcases (ih (some c)).mp h with ⟨pre, mid, post, h1, h2, hb, hb2⟩
        exact ⟨c :: pre, mid, post, by simp [h1], h2, hb, hb2⟩
    · rintro ⟨pre, mid, post, h1, h2, hb, hb2⟩
      cases pre with
      | nil =>
        left
        refine (wwAt_iff n (c :: cs) prev).mpr ⟨mid, post, by simpa using h1, h2, ?_, ?_⟩
        · simpa [lastFrom, h1] using hb
        · simpa [lastFrom] using hb2
      | cons p ps =>
        right
        simp only [List.cons_append, List.cons.injEq] at h1
        rcases h1 with ⟨hpc, h1⟩
        subst hpc
        exact (ih (some c)).mpr ⟨ps, mid, post, h1, h2, hb, hb2⟩

theorem shortcut_appears_empty_text (s : Str) : shortcut_appears_in_text s [] = false := by
  simp [shortcut_appears_in_text]

theorem wwAt_nil_subject (suf : Str) : wwAt suf [] none = false := by
  cases suf <;> simp [wwAt, bdry, wordCharO, hdO, ciPrefixAt]

/-- C1 (amended): for every nonempty shortcut `S` and every text `T`, the
grounding helper `_shortcut_appears_in_text` returns true iff `S` appears in
`T` as a case-insensitive substring, or `S` contains a colon and its suffix
after the first colon appears in `T` as a word-boundary-delimited,
case-insensitive whole word.  (For empty `S`, or empty `T`, the function
returns false, which for `S = ""` disagrees with the substring reading.) -/
theorem C1_shortcut_grounding (S T : Str) (hS : S ≠ []) :
    shortcut_appears_in_text S T = true ↔
      (CIInfix S T ∨ ∃ suf, afterColon S = some suf ∧ WholeWord suf T) := by
  cases T with
  | nil =>
    simp only [shortcut_appears_in_text, List.isEmpty_nil, Bool.or_true, if_true]
    constructor
    · intro h; cases h
    · rintro (⟨pre, mid, post, h1, h2⟩ | ⟨suf, _, hww⟩)
      · rcases List.append_eq_nil.mp h1.symm with ⟨hpm, hq⟩
        rcases List.append_eq_nil.mp hpm with ⟨hp, hm⟩
        subst hm
        exact absurd (lowerStr_nil_iff.mp h2.symm) hS
      · have := (wwFind_iff suf [] none).mpr hww
        rw [show wwFind suf [] none = wwAt suf [] none from rfl, wwAt_nil_subject] at this
        cases this
  | cons c cs =>
    obtain ⟨a, as, rfl⟩ := List.exists_cons_of_ne_nil hS
    cases hf : ciFind (a :: as) (c :: cs) with
    | true =>
      constructor
      · intro _
        exact Or.inl ((ciFind_iff _ _).mp hf)
      · intro _
        simp [shortcut_appears_in_text, hf]
    | false =>
      have hL : shortcut_appears_in_text (a :: as) (c :: cs) =
          (match afterColon (a :: as) with
           | none => false
           | some suffix => wwFind suffix (c :: cs) none) := by
        simp [shortcut_appears_in_text, hf]
      rw [hL]
      cases hac : afterColon (a :: as) with
      | none =>
        constructor
        · intro h; simp at h
        · rintro (hci | ⟨suf, hsome, _⟩)
          · exact absurd ((ciFind_iff _ _).mpr hci) (by simp [hf])
          · exact Option.noConfusion hsome
      | some suf =>
        show wwFind suf (c :: cs) none = true ↔ _
        rw [wwFind_iff]
        constructor
        · intro h
          exact Or.inr ⟨suf, rfl, h⟩
        · rintro (hci | ⟨suf', hsome, hww⟩)
          · exact absurd ((ciFind_iff _ _).mpr hci) (by simp [hf])
          · injection hsome with hs
            subst hs
            exact hww

/-- C1 witness: with T = "this seems like a DUE issue" and S = "WP:DUE" the
function returns true, and by the theorem the spec-side disjunction holds
(here via the bare-suffix whole-word path). -/
theorem C1_shortcut_grounding_witness :
    CIInfix "WP:DUE".toList "this seems like a DUE issue".toList ∨
      ∃ suf, afterColon "WP:DUE".toList = some suf ∧
        WholeWord suf "this seems like a DUE issue".toList :=
  (C1_shortcut_grounding "WP:DUE".toList "this seems like a DUE issue".toList
    (by decide)).mp (by decide)

/-- C1 counterexample: the claim quantifies over every shortcut string, but at
S = "" (which appears in every text as a case-insensitive substring) the
function returns false because of its Python truthiness guard, so the claimed
equivalence fails. -/
theorem C1_shortcut_grounding_cex :
    ¬ (shortcut_appears_in_text [] ['x'] = true ↔
        (CIInfix [] ['x'] ∨ ∃ suf, afterColon [] = some suf ∧ WholeWord suf ['x'])) := by
  intro h
  have hT : shortcut_appears_in_text [] ['x'] = true :=
    h.mpr (Or.inl ⟨[], [], ['x'], rfl, rfl⟩)
  simp [shortcut_appears_in_text] at hT

/-- C2 counterexample: with no discussion text and a category whose only
anchor is not a candidate link, the claimed "input passed through" output is
not produced — the code returns the none-found message because the raw HTML
happens to contain `<a` + whitespace. -/
theorem C2_cex_noncandidate_anchor :
    candAnchors cexCatC2 = [] ∧
    (ground_llm_results_to_text cexCatC2 emptyCat emptyCat none).1 = emptyMsg ∧
    emptyMsg ≠ cexCatC2.raw := by decide

theorem rebuildCat_of_no_grounded (c : CatInput) (grounded : List Str)
    (h : ∀ a ∈ candAnchors c, ∀ s, matchWPMOS_ground a.txt = some s → s ∉ grounded) :
    rebuildCat c grounded = [] := by
  unfold rebuildCat
  have hnil : (candAnchors c).filterMap (fun a =>
      match matchWPMOS_ground a.txt with
      | some s => if s ∈ grounded then some (mkGroundedLink a) else none
      | none => none) = [] := by
    rw [List.filterMap_eq_nil_iff]
    intro a ha
    cases hm : matchWPMOS_ground a.txt with
    | none => rfl
    | some s => simp [h a ha s hm]
  rw [hnil]
  rfl

/-- C2 (amended): whenever the discussion text is absent or empty, every
candidate fails grounding and each category's output is the all-dropped
result; but the choice between the none-found message and pass-through is
made by searching the raw HTML for the literal `<a` followed by whitespace,
not by the presence of candidate links. -/
theorem C2_empty_text_all_dropped (p g e : CatInput) (dt : Option Str)
    (h : dt = none ∨ dt = some []) :
    ground_llm_results_to_text p g e dt =
      ((if hasOpenAnchorWs p.raw then emptyMsg else p.raw),
       (if hasOpenAnchorWs g.raw then emptyMsg else g.raw),
       (if hasOpenAnchorWs e.raw then emptyMsg else e.raw)) := by
  have htext : pyStrip (dt.getD []) = [] := by rcases h with rfl | rfl <;> rfl
  have hg : groundedOf p g e (pyStrip (dt.getD [])) = [] := by
    rw [htext]
    unfold groundedOf
    rw [List.filter_eq_nil_iff]
    intro a _
    rw [shortcut_appears_empty_text]
    simp
  have hreb : ∀ c : CatInput, rebuildCat c [] = [] := by
    intro c
    apply rebuildCat_of_no_grounded
    intro a _ s _
    simp
  simp only [ground_llm_results_to_text, hg, groundOut, hreb, List.isEmpty_nil, if_true]

/-- C2 witness: a category with a non-policy anchor gets the none-found
message, categories whose raw HTML has no `<a` + whitespace pass through. -/
theorem C2_empty_text_witness :
    ground_llm_results_to_text cexCatC2 ⟨"<p>g</p>".toList, []⟩ ⟨"<p>g</p>".toList, []⟩ none =
      (emptyMsg, "<p>g</p>".toList, "<p>g</p>".toList) := by
  rw [C2_empty_text_all_dropped _ _ _ none (Or.inl rfl)]
  decide

/-- C6 counterexample: a category containing an anchor but no candidate link
at all: the claim says the input HTML is returned unchanged, but the code
returns the explicit none-found message (the `<a` + whitespace test fires). -/
theorem C6_cex_message_without_candidates :
    candAnchors cexCatC6 = [] ∧
    (ground_llm_results_to_text cexCatC6 emptyCat emptyCat (some "hello".toList)).1 = emptyMsg ∧
    emptyMsg ≠ cexCatC6.raw := by decide

/-- C6 (amended): when no candidate of a category survives grounding, the
category's output is the explicit none-found message exactly when the raw
input HTML contains the literal `<a` followed by whitespace, and the raw
input unchanged otherwise; the two zero-result states are distinguished by
that raw-string test, not by the presence of candidate links. -/
theorem C6_zero_grounded_output (p g e : CatInput) (dt : Option Str)
    (h : ∀ a ∈ candAnchors p, ∀ s, matchWPMOS_ground a.txt = some s →
           s ∉ groundedOf p g e (pyStrip (dt.getD []))) :
    (ground_llm_results_to_text p g e dt).1 =
      (if hasOpenAnchorWs p.raw then emptyMsg else p.raw) := by
  have hreb := rebuildCat_of_no_grounded p _ h
  simp only [ground_llm_results_to_text, groundOut, hreb, List.isEmpty_nil, if_true]

/-- C6 witness: a category with no anchors and no `<a` in its raw HTML is
passed through unchanged. -/
theorem C6_zero_grounded_witness :
    (ground_llm_results_to_text ⟨"<p>x</p>".toList, []⟩ emptyCat emptyCat none).1 =
      "<p>x</p>".toList := by
  rw [C6_zero_grounded_output ⟨"<p>x</p>".toList, []⟩ emptyCat emptyCat none
    (by intro a ha; simp [candAnchors] at ha)]
  decide

/-- C3 counterexample: "WP:DUE" is grounded (bare-suffix whole-word "DUE"
appears in the only sentence), but the computed sentence-id list is empty,
whereas the claim's matching rule (the full two-tier grounding logic) selects
sentence 0. -/
theorem C3_cex_bare_suffix_no_ids :
    sentenceGrounded stsC3 "WP:DUE".toList = true ∧
    sentence_ids_for stsC3 "WP:DUE".toList = [] ∧
    (stsC3.enum.filter (fun q => matchesFullLogic "WP:DUE".toList q.2)).map Prod.fst = [0] ∧
    ([] : List Nat) ≠ [0] := by decide

/-- C3 (amended): the sentence ids computed for a retained shortcut are
exactly the indices of the sentences containing the shortcut case-insensitively
as a substring — the bare-suffix whole-word path of the grounding logic is not
applied per sentence, so a mention grounded only via its bare suffix gets no
sentence ids. -/
theorem C3_sentence_ids_substring_only (sts : List Str) (s : Str) (i : Nat) :
    i ∈ sentence_ids_for sts s ↔ ∃ h : i < sts.length, CIInfix s (sts.get ⟨i, h⟩) := by
  unfold sentence_ids_for
  rw [List.mem_map]
  constructor
  · rintro ⟨⟨j, st⟩, hq, rfl⟩
    rw [List.mem_filter] at hq
    obtain ⟨hmem, hci⟩ := hq
    have hget := List.mk_mem_enum_iff_getElem?.mp hmem
    rw [List.getElem?_eq_some] at hget
    obtain ⟨hlt, hst⟩ := hget
    refine ⟨hlt, ?_⟩
    rw [List.get_eq_getElem]
    exact (ciFind_iff s _).mp (by simpa [hst] using hci)
  · rintro ⟨hlt, hci⟩
    refine ⟨(i, sts.get ⟨i, hlt⟩), ?_, rfl⟩
    rw [List.mem_filter]
    refine ⟨List.mk_mem_enum_iff_getElem?.mpr ?_, ?_⟩
    · rw [List.get_eq_getElem, List.getElem?_eq_getElem hlt]
    · exact (ciFind_iff s _).mpr hci

/-- C4: highlight ids are assigned by enumerating the distinct grounded
shortcuts in lexicographic order with sequential integers from 0; the
assignment depends only on the set of candidate shortcuts (not their order),
the sorted list is duplicate-free and ascending, its k-th entry is paired
with `highlight-k`. -/
theorem C4_deterministic_ids (cands₁ cands₂ sts : List Str)
    (h : ∀ s, s ∈ cands₁ ↔ s ∈ cands₂) :
    shortcut_to_id_list cands₁ sts = shortcut_to_id_list cands₂ sts ∧
    List.Sorted (· ≤ ·) (sortedGrounded cands₁ sts) ∧
    (sortedGrounded cands₁ sts).Nodup ∧
    (shortcut_to_id_list cands₁ sts).map Prod.fst = sortedGrounded cands₁ sts ∧
    (shortcut_to_id_list cands₁ sts).map Prod.snd =
      (List.range (sortedGrounded cands₁ sts).length).map highlightIdOf := by
  have nd₁ : (cands₁.dedup.filter (sentenceGrounded sts)).Nodup :=
    (List.nodup_dedup _).filter _
  have nd₂ : (cands₂.dedup.filter (sentenceGrounded sts)).Nodup :=
    (List.nodup_dedup _).filter _
  refine ⟨?_, ?_, ?_, ?_, ?_⟩
  · have hperm : List.Perm (cands₁.dedup.filter (sentenceGrounded sts))
        (cands₂.dedup.filter (sentenceGrounded sts)) := by
      rw [List.perm_ext_iff_of_nodup nd₁ nd₂]
      intro a
      simp [List.mem_filter, List.mem_dedup, h a]
    have s1 : List.Sorted (· ≤ ·) (sortedGrounded cands₁ sts) := by
      unfold sortedGrounded; exact List.sorted_insertionSort _ _
    have s2 : List.Sorted (· ≤ ·) (sortedGrounded cands₂ sts) := by
      unfold sortedGrounded; exact List.sorted_insertionSort _ _
    have hsort : sortedGrounded cands₁ sts = sortedGrounded cands₂ sts :=
      List.eq_of_perm_of_sorted
        ((List.perm_insertionSort _ _).trans (hperm.trans (List.perm_insertionSort _ _).symm))
        s1 s2
    unfold shortcut_to_id_list
    rw [hsort]
  · exact List.sorted_insertionSort _ _
  · exact (List.perm_insertionSort _ _).nodup_iff.mpr nd₁
  · unfold shortcut_to_id_list
    rw [List.map_map]
    rw [show (Prod.fst ∘ fun q : Nat × Str => (q.2, highlightIdOf q.1)) = Prod.snd from rfl]
    exact List.enum_map_snd _
  · unfold shortcut_to_id_list
    rw [List.map_map]
    rw [show (Prod.snd ∘ fun q : Nat × Str => (q.2, highlightIdOf q.1)) =
          (highlightIdOf ∘ Prod.fst) from rfl]
    rw [← List.map_map, List.enum_map_fst]

/-- C4 witness: the end-to-end scenario of the spec — candidates supplied in
either order produce the same assignment. -/
theorem C4_deterministic_ids_witness :
    shortcut_to_id_list ["WP:OR".toList, "WP:NPOV".toList]
        ["Editors disagree about WP:NPOV here.".toList,
         "Later the OR concern was raised.".toList] =
      shortcut_to_id_list ["WP:NPOV".toList, "WP:OR".toList, "WP:NPOV".toList]
        ["Editors disagree about WP:NPOV here.".toList,
         "Later the OR concern was raised.".toList] :=
  (C4_deterministic_ids _ _ _ (by intro s; simp [List.mem_cons]; tauto)).1

theorem segmentsFrom_contig (l : List Str) : ∀ cur, contigFrom cur (segmentsFrom cur l) = true := by
  induction l with
  | nil => intro cur; rfl
  | cons s rest ih =>
    intro cur
    by_cases hs : s = []
    · rw [segmentsFrom, if_pos hs]
      exact ih cur
    · rw [segmentsFrom, if_neg hs]
      have hne : s.isEmpty = false := by
        cases s with
        | nil => exact absurd rfl hs
        | cons x xs => rfl
      simp [contigFrom, hne, ih (cur + s.length)]

theorem segmentsFrom_flatten (l : List Str) : ∀ cur,
    ((segmentsFrom cur l).map (fun q => q.1)).flatten = l.flatten := by
  induction l with
  | nil => intro cur; rfl
  | cons s rest ih =>
    intro cur
    by_cases hs : s = []
    · rw [segmentsFrom, if_pos hs, ih cur]
      simp [hs]
    · rw [segmentsFrom, if_neg hs]
      simp [ih (cur + s.length)]

theorem segmentsFrom_lb (l : List Str) : ∀ cur q, q ∈ segmentsFrom cur l → cur ≤ q.2.1 := by
  induction l with
  | nil => intro cur q h; simp [segmentsFrom] at h
  | cons s rest ih =>
    intro cur q h
    by_cases hs : s = []
    · rw [segmentsFrom, if_pos hs] at h
      exact ih cur q h
    · rw [segmentsFrom, if_neg hs] at h
      rcases List.mem_cons.mp h with rfl | h2
      · exact le_refl _
      · exact le_trans (Nat.le_add_right _ _) (ih _ q h2)

theorem segmentsFrom_pairwise (l : List Str) : ∀ cur,
    List.Pairwise (fun q r : Str × Nat × Nat => q.2.2 ≤ r.2.1) (segmentsFrom cur l) := by
  induction l with
  | nil => intro cur; exact List.Pairwise.nil
  | cons s rest ih =>
    intro cur
    by_cases hs : s = []
    · rw [segmentsFrom, if_pos hs]
      exact ih cur
    · rw [segmentsFrom, if_neg hs]
      exact List.Pairwise.cons (fun r hr => segmentsFrom_lb rest _ r hr) (ih _)

/-- C5: the segment list of `_get_text_segments` is contiguous from offset 0
(each segment starts where the previous one ended, its end is its start plus
its raw text's length, its text is nonempty), the ordered concatenation of
segment texts is exactly the full flattened document text (raw characters, no
re-encoding), and segments are pairwise non-overlapping in sorted order. -/
theorem C5_segments_invariants (doc : List Node) :
    contigFrom 0 (_get_text_segments doc) = true ∧
    ((_get_text_segments doc).map (fun q => q.1)).flatten = flattenedText doc ∧
    List.Pairwise (fun q r : Str × Nat × Nat => q.2.2 ≤ r.2.1) (_get_text_segments doc) :=
  ⟨segmentsFrom_contig _ 0, segmentsFrom_flatten _ 0, segmentsFrom_pairwise _ 0⟩

theorem rfindFrom_pos (sub s : Str) (a lim : Nat) : ∀ k,
    0 ≤ rfindFrom sub s a lim k →
    a ≤ (rfindFrom sub s a lim k).toNat ∧
      (rfindFrom sub s a lim k).toNat + sub.length ≤ lim := by
  intro k
  induction k with
  | zero =>
    intro h
    by_cases hc : a = 0 ∧ sub.length ≤ lim ∧ occursAtLit sub s 0 = true
    · rw [rfindFrom, if_pos hc]
      exact ⟨by omega, by simpa using hc.2.1⟩
    · rw [rfindFrom, if_neg hc] at h
      exact absurd h (by decide)
  | succ k ih =>
    intro h
    by_cases hc : a ≤ k + 1 ∧ (k + 1) + sub.length ≤ lim ∧ occursAtLit sub s (k + 1) = true
    · rw [rfindFrom, if_pos hc]
      constructor
      · have : ((k : Int) + 1).toNat = k + 1 := by omega
        omega
      · have : ((k : Int) + 1).toNat = k + 1 := by omega
        omega
    · rw [rfindFrom, if_neg hc] at h ⊢
      exact ih h

theorem rfindIn_pos (sub s : Str) (a b : Nat) (h : 0 ≤ rfindIn sub s a b) :
    a ≤ (rfindIn sub s a b).toNat ∧
      (rfindIn sub s a b).toNat + sub.length ≤ min b s.length :=
  rfindFrom_pos sub s a (min b s.length) (min b s.length) h

theorem max4_cases (a b c d : Int) :
    max4 a b c d = a ∨ max4 a b c d = b ∨ max4 a b c d = c ∨ max4 a b c d = d := by
  unfold max4
  rcases max_choice (max a b) (max c d) with h | h <;> rw [h]
  · rcases max_choice a b with h2 | h2 <;> rw [h2] <;> tauto
  · rcases max_choice c d with h2 | h2 <;> rw [h2] <;> tauto

theorem rfind_chunk_bounds (text : Str) (start : Nat) (sub : Str) (hlen2 : sub.length = 2)
    (h : 0 ≤ rfindIn sub text (max (start + 3000 - 200) start) (start + 3000)) :
    start + 2800 ≤ (rfindIn sub text (max (start + 3000 - 200) start) (start + 3000)).toNat ∧
      (rfindIn sub text (max (start + 3000 - 200) start) (start + 3000)).toNat + 2 ≤
        start + 3000 := by
  have hp := rfindIn_pos sub text (max (start + 3000 - 200) start) (start + 3000) h
  have hss : start + 2800 ≤ max (start + 3000 - 200) start := by
    have he : start + 3000 - 200 = start + 2800 := by omega
    rw [he]
    exact Nat.le_max_left _ _
  refine ⟨le_trans hss hp.1, ?_⟩
  have := hp.2
  rw [hlen2] at this
  have hmin : min (start + 3000) text.length ≤ start + 3000 := Nat.min_le_left _ _
  omega

theorem chunkEnd_bounds (text : Str) (start : Nat) :
    start + 2801 ≤ chunkEndOf text 3000 start ∧ chunkEndOf text 3000 start ≤ start + 3000 := by
  unfold chunkEndOf
  by_cases hlen : start + 3000 < text.length
  · rw [if_pos hlen]
    by_cases hse : (start : Int) <
        max4 (rfindIn ". ".toList text (max (start + 3000 - 200) start) (start + 3000))
             (rfindIn "! ".toList text (max (start + 3000 - 200) start) (start + 3000))
             (rfindIn "? ".toList text (max (start + 3000 - 200) start) (start + 3000))
             (rfindIn "\n\n".toList text (max (start + 3000 - 200) start) (start + 3000))
    · rw [if_pos hse]
      have hnn : (0 : Int) ≤
          max4 (rfindIn ". ".toList text (max (start + 3000 - 200) start) (start + 3000))
               (rfindIn "! ".toList text (max (start + 3000 - 200) start) (start + 3000))
               (rfindIn "? ".toList text (max (start + 3000 - 200) start) (start + 3000))
               (rfindIn "\n\n".toList text (max (start + 3000 - 200) start) (start + 3000)) :=
        le_of_lt (lt_of_le_of_lt (Int.natCast_nonneg start) hse)
      rcases max4_cases (rfindIn ". ".toList text (max (start + 3000 - 200) start) (start + 3000))
          (rfindIn "! ".toList text (max (start + 3000 - 200) start) (start + 3000))
          (rfindIn "? ".toList text (max (start + 3000 - 200) start) (start + 3000))
          (rfindIn "\n\n".toList text (max (start + 3000 - 200) start) (start + 3000)) with
        he | he | he | he <;> rw [he] at hnn ⊢ <;>
      · first
        | (have hb := rfind_chunk_bounds text start ". ".toList (by decide) hnn; omega)
        | (have hb := rfind_chunk_bounds text start "! ".toList (by decide) hnn; omega)
        | (have hb := rfind_chunk_bounds text start "? ".toList (by decide) hnn; omega)
        | (have hb := rfind_chunk_bounds text start "\n\n".toList (by decide) hnn; omega)
    · rw [if_neg hse]
      omega
  · rw [if_neg hlen]
    omega

theorem length_dropWhile_le (p : Char → Bool) (l : Str) :
    (l.dropWhile p).length ≤ l.length := by
  induction l with
  | nil => exact le_refl _
  | cons c cs ih =>
    rw [List.dropWhile_cons]
    split
    · exact le_trans ih (Nat.le_succ _)
    · exact le_refl _

theorem pyStrip_length_le (s : Str) : (pyStrip s).length ≤ s.length := by
  unfold pyStrip
  calc ((s.dropWhile pyWs).reverse.dropWhile pyWs).reverse.length
      = ((s.dropWhile pyWs).reverse.dropWhile pyWs).length := List.length_reverse _
    _ ≤ (s.dropWhile pyWs).reverse.length := length_dropWhile_le _ _
    _ = (s.dropWhile pyWs).length := List.length_reverse _
    _ ≤ s.length := length_dropWhile_le _ _

theorem sliceStr_length_le (s : Str) (a b : Nat) : (sliceStr s a b).length ≤ b - a := by
  unfold sliceStr
  exact List.length_take_le _ _

theorem chunkAccStep_prop (text : Str) (start : Nat) (acc : List Str)
    (hacc : ∀ c ∈ acc, c ≠ [] ∧ c.length ≤ 3000) :
    ∀ c ∈ chunkAccStep text 3000 start acc, c ≠ [] ∧ c.length ≤ 3000 := by
  have hb := chunkEnd_bounds text start
  unfold chunkAccStep
  split
  · exact hacc
  · rename_i hne
    intro c hc
    rcases List.mem_append.mp hc with h1 | h1
    · exact hacc c h1
    · rcases List.mem_singleton.mp h1 with rfl
      refine ⟨hne, ?_⟩
      calc (pyStrip (sliceStr text start (chunkEndOf text 3000 start))).length
          ≤ (sliceStr text start (chunkEndOf text 3000 start)).length := pyStrip_length_le _
        _ ≤ chunkEndOf text 3000 start - start := sliceStr_length_le _ _ _
        _ ≤ 3000 := by omega

theorem chunkLoop_sound (text : Str) : ∀ (fuel : Nat) (start : Nat) (acc : List Str),
    text.length - start < fuel →
    (∀ c ∈ acc, c ≠ [] ∧ c.length ≤ 3000) →
    ∃ cs, chunkLoop text 3000 300 fuel start acc = some cs ∧
      ∀ c ∈ cs, c ≠ [] ∧ c.length ≤ 3000 := by
  intro fuel
  induction fuel with
  | zero =>
    intro start acc h _
    omega
  | succ fuel ih =>
    intro start acc hfuel hacc
    have hb := chunkEnd_bounds text start
    rw [chunkLoop]
    by_cases hstop : text.length ≤ chunkEndOf text 3000 start - 300
    · rw [if_pos hstop]
      exact ⟨_, rfl, chunkAccStep_prop text start acc hacc⟩
    · rw [if_neg hstop]
      exact ih (chunkEndOf text 3000 start - 300) (chunkAccStep text 3000 start acc)
        (by omega) (chunkAccStep_prop text start acc hacc)

/-- C10 (amended): for every nonempty input, `chunk_text` with its default
parameters terminates (the fueled loop returns a value with fuel bounded by
the text's length) and every returned chunk is a nonempty string of length at
most 3000.  For the empty input the function returns `[""]`, whose single
chunk is empty. -/
theorem C10_chunk_text_default (text : Str) (h : text ≠ []) :
    ∃ cs, chunkTextDefault text = some cs ∧ ∀ c ∈ cs, c ≠ [] ∧ c.length ≤ 3000 := by
  unfold chunkTextDefault chunk_text
  by_cases hlen : text.length ≤ 3000
  · rw [if_pos hlen]
    refine ⟨[text], rfl, ?_⟩
    intro c hc
    rcases List.mem_singleton.mp hc with rfl
    exact ⟨h, hlen⟩
  · rw [if_neg hlen]
    exact chunkLoop_sound text (text.length + 1) 0 [] (by omega) (by intro c hc; simp at hc)

/-- C10 witness: a small nonempty text yields one nonempty chunk. -/
theorem C10_chunk_text_default_witness :
    ∃ cs, chunkTextDefault "hi".toList = some cs ∧
      ∀ c ∈ cs, c ≠ [] ∧ c.length ≤ 3000 :=
  C10_chunk_text_default "hi".toList (by decide)

/-- C10 counterexample: on the empty string the claim fails — the function
returns a list whose only chunk is the empty string. -/
theorem C10_cex_empty_chunk :
    chunkTextDefault [] = some [[]] ∧ ([] : Str) ∈ [([] : Str)] ∧ ¬ (([] : Str) ≠ []) := by
  exact ⟨rfl, by simp, by simp⟩

theorem digitChar_isDigit (m : Nat) (h : m < 10) : (Nat.digitChar m).isDigit = true := by
  interval_cases m <;> decide

theorem natStrAux_digits : ∀ (fuel n : Nat), n ≤ fuel ∨ n < 10 →
    ∀ c ∈ natStrAux fuel n, c.isDigit = true := by
  intro fuel
  induction fuel with
  | zero =>
    intro n h c hc
    have hn : n < 10 := by omega
    rw [natStrAux] at hc
    rcases List.mem_singleton.mp hc with rfl
    exact digitChar_isDigit n hn
  | succ fuel ih =>
    intro n h c hc
    rw [natStrAux] at hc
    by_cases hn : n < 10
    · rw [if_pos hn] at hc
      rcases List.mem_singleton.mp hc with rfl
      exact digitChar_isDigit n hn
    · rw [if_neg hn] at hc
      rcases List.mem_append.mp hc with h1 | h1
      · exact ih (n / 10) (by omega) c h1
      · rcases List.mem_singleton.mp h1 with rfl
        exact digitChar_isDigit _ (by omega)

theorem natStr_digits (n : Nat) : ∀ c ∈ natStr n, c.isDigit = true :=
  natStrAux_digits n n (Or.inl (le_refl n))

theorem fragTextAux_tag (a : Str) (h : '>' ∉ a) (b : Str) :
    fragTextAux true (a ++ '>' :: b) = fragTextAux false b := by
  induction a with
  | nil => simp [fragTextAux]
  | cons x xs ih =>
    have hx : x ≠ '>' := fun hh => h (by simp [hh])
    show fragTextAux true (x :: (xs ++ '>' :: b)) = _
    rw [fragTextAux, if_neg hx]
    exact ih (fun hm => h (List.mem_cons_of_mem _ hm))

theorem fragText_cons_plain (c : Char) (h1 : c ≠ '<') (h2 : c ≠ '&') (xs : Str) :
    fragTextAux false (c :: xs) = c :: fragTextAux false xs := by
  rw [fragTextAux.eq_def]
  split <;> simp_all

theorem fragText_escape_append (s : Str) : ∀ rest : Str,
    fragTextAux false (htmlEscape s ++ rest) = s ++ fragTextAux false rest := by
  induction s with
  | nil => intro rest; rfl
  | cons c cs ih =>
    intro rest
    show fragTextAux false ((escChar c ++ htmlEscape cs) ++ rest) = c :: (cs ++ fragTextAux false rest)
    rw [List.append_assoc]
    by_cases e1 : c = '&'
    · subst e1
      rw [show (escChar '&' ++ (htmlEscape cs ++ rest)) =
            '&' :: 'a' :: 'm' :: 'p' :: ';' :: (htmlEscape cs ++ rest) from rfl]
      rw [show fragTextAux false ('&' :: 'a' :: 'm' :: 'p' :: ';' :: (htmlEscape cs ++ rest)) =
            '&' :: fragTextAux false (htmlEscape cs ++ rest) from rfl]
      rw [ih rest]
    · by_cases e2 : c = '<'
      · subst e2
        rw [show (escChar '<' ++ (htmlEscape cs ++ rest)) =
              '&' :: 'l' :: 't' :: ';' :: (htmlEscape cs ++ rest) from rfl]
        rw [show fragTextAux false ('&' :: 'l' :: 't' :: ';' :: (htmlEscape cs ++ rest)) =
              '<' :: fragTextAux false (htmlEscape cs ++ rest) from rfl]
        rw [ih rest]
      · by_cases e3 : c = '>'
        · subst e3
          rw [show (escChar '>' ++ (htmlEscape cs ++ rest)) =
                '&' :: 'g' :: 't' :: ';' :: (htmlEscape cs ++ rest) from rfl]
          rw [show fragTextAux false ('&' :: 'g' :: 't' :: ';' :: (htmlEscape cs ++ rest)) =
                '>' :: fragTextAux false (htmlEscape cs ++ rest) from rfl]
          rw [ih rest]
        · by_cases e4 : c = '"'
          · subst e4
            rw [show (escChar '"' ++ (htmlEscape cs ++ rest)) =
                  '&' :: 'q' :: 'u' :: 'o' :: 't' :: ';' :: (htmlEscape cs ++ rest) from rfl]
            rw [show fragTextAux false
                  ('&' :: 'q' :: 'u' :: 'o' :: 't' :: ';' :: (htmlEscape cs ++ rest)) =
                  '"' :: fragTextAux false (htmlEscape cs ++ rest) from rfl]
            rw [ih rest]
          · by_cases e5 : c = Char.ofNat 39
            · subst e5
              rw [show (escChar (Char.ofNat 39) ++ (htmlEscape cs ++ rest)) =
                    '&' :: '#' :: 'x' :: '2' :: '7' :: ';' :: (htmlEscape cs ++ rest) from rfl]
              rw [show fragTextAux false
                    ('&' :: '#' :: 'x' :: '2' :: '7' :: ';' :: (htmlEscape cs ++ rest)) =
                    Char.ofNat 39 :: fragTextAux false (htmlEscape cs ++ rest) from rfl]
              rw [ih rest]
            · rw [show escChar c = [c] from by simp [escChar, e1, e2, e3, e4, e5]]
              rw [show ([c] ++ (htmlEscape cs ++ rest)) = c :: (htmlEscape cs ++ rest) from rfl]
              rw [fragText_cons_plain c e2 e1, ih rest]

theorem escape_no_raw (s : Str) : ∀ c ∈ htmlEscape s, c ≠ '<' ∧ c ≠ '>' := by
  induction s with
  | nil => intro c hc; simp [htmlEscape] at hc
  | cons x xs ih =>
    intro c hc
    rw [htmlEscape] at hc
    rcases List.mem_append.mp hc with h1 | h1
    · by_cases e1 : x = '&'
      · subst e1
        rw [show escChar '&' = ['&', 'a', 'm', 'p', ';'] from rfl] at h1
        fin_cases h1 <;> decide
      · by_cases e2 : x = '<'
        · subst e2
          rw [show escChar '<' = ['&', 'l', 't', ';'] from rfl] at h1
          fin_cases h1 <;> decide
        · by_cases e3 : x = '>'
          · subst e3
            rw [show escChar '>' = ['&', 'g', 't', ';'] from rfl] at h1
            fin_cases h1 <;> decide
          · by_cases e4 : x = '"'
            · subst e4
              rw [show escChar '"' = ['&', 'q', 'u', 'o', 't', ';'] from rfl] at h1
              fin_cases h1 <;> decide
            · by_cases e5 : x = Char.ofNat 39
              · subst e5
                rw [show escChar (Char.ofNat 39) = ['&', '#', 'x', '2', '7', ';'] from rfl] at h1
                fin_cases h1 <;> decide
              · rw [show escChar x = [x] from by simp [escChar, e1, e2, e3, e4, e5]] at h1
                rcases List.mem_singleton.mp h1 with rfl
                exact ⟨e2, e3⟩
    · exact ih c h1

/-- C8 (amended): in the sentence-span wrapping pass every re-inserted
substring is escaped exactly once: the markup built at utils.py line 69 (and
the escaped gap text of lines 77/81) re-parses to exactly the original
characters, and escaped text contains no raw markup-special character.  (The
highlight pass, by contrast, re-inserts raw text with no escaping — see the
counterexample, where an original `&` is lost on re-parse.) -/
theorem C8_sentence_pass_escapes_once (idx : Nat) (chunk gap : Str) :
    fragTextOf (sentSpanMarkup idx chunk) = chunk ∧
    fragTextOf (htmlEscape gap) = gap ∧
    ∀ c ∈ htmlEscape gap, c ≠ '<' ∧ c ≠ '>' := by
  refine ⟨?_, ?_, escape_no_raw gap⟩
  · have hgt : '>' ∉ sentOpenBody idx := by
      intro hm
      unfold sentOpenBody at hm
      rcases List.mem_append.mp hm with hm1 | hm1
      · rcases List.mem_append.mp hm1 with hm2 | hm2
        · revert hm2; decide
        · have := natStr_digits idx _ hm2
          simp at this
      · revert hm1; decide
    unfold fragTextOf sentSpanMarkup
    rw [show fragTextAux false
          ('<' :: (sentOpenBody idx ++ '>' :: (htmlEscape chunk ++ spanClose))) =
          fragTextAux true (sentOpenBody idx ++ '>' :: (htmlEscape chunk ++ spanClose))
        from rfl]
    rw [fragTextAux_tag _ hgt _]
    rw [fragText_escape_append]
    rw [show fragTextAux false spanClose = [] from rfl]
    simp
  · have := fragText_escape_append gap []
    simpa [fragTextOf, show fragTextAux false [] = ([] : Str) from rfl] using this

/-- C8 counterexample: the highlight pass re-inserts the node's raw text with
no escaping, so for a text node whose raw characters are "a &amp; b WP:X"
(as parsed from HTML source "a &amp;amp; b WP:X") the produced fragment
re-parses to "a & b WP:X": the original '&' was left unescaped and its
entity-looking neighbourhood is collapsed — the text is corrupted instead of
escaped exactly once. -/
theorem C8_cex_highlight_pass_unescaped :
    fragTextOf (wrapFirstCI "highlight-0".toList "WP:X".toList "a &amp; b WP:X".toList) =
      "a & b WP:X".toList ∧
    "a & b WP:X".toList ≠ "a &amp; b WP:X".toList := by decide

/-- C9: evaluating `add_highlight_ids` at a discussion whose first text node
holds the shortcut twice: `str.replace` wraps both occurrences, each carrying
the same id, so the output contains two `highlight-0` spans instead of one
wrapper around only the first occurrence. -/
theorem C9_add_highlight_ids_wraps_all :
    add_highlight_ids ["WP:X and WP:X".toList] [some "WP:X".toList] =
      [policyMentionMarkup 0 "WP:X".toList ++ " and ".toList ++
        policyMentionMarkup 0 "WP:X".toList] ∧
    countOcc "<span id=\"highlight-0\"".toList
      (policyMentionMarkup 0 "WP:X".toList ++ " and ".toList ++
        policyMentionMarkup 0 "WP:X".toList) = 2 := by decide

theorem pairChain_mono {lo lo' : Nat} (h : lo' ≤ lo) :
    ∀ {l : List (Nat × Nat)}, pairChain lo l → pairChain lo' l := by
  intro l hl
  cases l with
  | nil => trivial
  | cons q rest =>
    obtain ⟨a, b⟩ := q
    exact ⟨le_trans h hl.1, hl.2⟩

theorem trimChain_mono {lo lo' : Nat} (h : lo' ≤ lo) :
    ∀ {l : List (Nat × Nat × Str)}, trimChain lo l → trimChain lo' l := by
  intro l hl
  cases l with
  | nil => trivial
  | cons q rest =>
    obtain ⟨a, b, s⟩ := q
    exact ⟨le_trans h hl.1, hl.2⟩

theorem OffChain_mono {lo lo' : Nat} (h : lo' ≤ lo) :
    ∀ {l : List SentOff}, OffChain lo l → OffChain lo' l := by
  intro l hl
  cases l with
  | nil => trivial
  | cons q rest =>
    obtain ⟨i, s, e⟩ := q
    exact ⟨le_trans h hl.1, hl.2⟩

theorem PartsChain_mono {pos pos' : Nat} (h : pos' ≤ pos) :
    ∀ {l : List (Nat × Nat × Nat)}, PartsChain pos l → PartsChain pos' l := by
  intro l hl
  cases l with
  | nil => trivial
  | cons q rest =>
    obtain ⟨rs, re, i⟩ := q
    exact ⟨le_trans h hl.1, hl.2⟩

theorem rawSpans_chain : ∀ (rest : Str) (i st : Nat), st ≤ i →
    pairChain st (rawSpans i st rest) := by
  intro rest
  induction rest with
  | nil =>
    intro i st hst
    rw [rawSpans]
    split
    · exact ⟨le_refl st, by omega, trivial⟩
    · trivial
  | cons c cs ih =>
    intro i st hst
    rw [rawSpans]
    by_cases h1 : (isTermPunct c && nextWs cs) = true
    · rw [if_pos h1]
      exact ⟨le_refl st, by omega, ih (i + 1) (i + 1) (le_refl _)⟩
    · rw [if_neg h1]
      by_cases h2 : (c == '\n' && nextNl cs) = true
      · rw [if_pos h2]
        by_cases h3 : st < i
        · rw [if_pos h3]
          exact ⟨le_refl st, h3, pairChain_mono (by omega) (ih (i + 1) (i + 1) (le_refl _))⟩
        · rw [if_neg h3]
          exact pairChain_mono (by omega) (ih (i + 1) (i + 1) (le_refl _))
      · rw [if_neg h2]
        exact ih (i + 1) st (by omega)

theorem takeWhile_dropWhile_length (p : Char → Bool) (l : Str) :
    (l.takeWhile p).length + (l.dropWhile p).length = l.length := by
  conv_rhs => rw [← List.takeWhile_append_dropWhile (p := p) (l := l)]
  rw [List.length_append]

theorem pyStrip_core_length (raw : Str) :
    (raw.takeWhile pyWs).length + (pyStrip raw).length ≤ raw.length := by
  have h1 := takeWhile_dropWhile_length pyWs raw
  have h2 : (pyStrip raw).length ≤ (raw.dropWhile pyWs).length := by
    unfold pyStrip
    calc ((raw.dropWhile pyWs).reverse.dropWhile pyWs).reverse.length
        = ((raw.dropWhile pyWs).reverse.dropWhile pyWs).length := List.length_reverse _
      _ ≤ (raw.dropWhile pyWs).reverse.length := length_dropWhile_le _ _
      _ = (raw.dropWhile pyWs).length := List.length_reverse _
  omega

theorem trimSpanIn_bounds (t : Str) (a b : Nat) (a2 b2 : Nat) (core : Str)
    (h : trimSpanIn t a b = some (a2, b2, core)) :
    a ≤ a2 ∧ a2 < b2 ∧ b2 ≤ b := by
  unfold trimSpanIn at h
  split at h
  · cases h
  · rename_i hne
    simp only [Option.some.injEq, Prod.mk.injEq] at h
    obtain ⟨h1, h2, h3⟩ := h
    subst h1; subst h2; subst h3
    have hcore : (pyStrip (sliceStr t a b)).length ≠ 0 := by
      intro hz
      exact hne (List.eq_nil_of_length_eq_zero hz)
    have hlen := pyStrip_core_length (sliceStr t a b)
    have hslice : (sliceStr t a b).length ≤ b - a := sliceStr_length_le t a b
    refine ⟨by omega, by omega, by omega⟩

theorem trim_chain (t : Str) : ∀ (spans : List (Nat × Nat)) (lo : Nat),
    pairChain lo spans →
    trimChain lo (spans.filterMap (fun q => trimSpanIn t q.1 q.2)) := by
  intro spans
  induction spans with
  | nil => intro lo _; trivial
  | cons q rest ih =>
    obtain ⟨a, b⟩ := q
    intro lo hch
    obtain ⟨hla, hab, hrest⟩ := hch
    rw [List.filterMap_cons]
    cases htr : trimSpanIn t a b with
    | none =>
      exact trimChain_mono (by omega) (ih b hrest)
    | some v =>
      obtain ⟨a2, b2, core⟩ := v
      have hb := trimSpanIn_bounds t a b a2 b2 core htr
      exact ⟨by omega, hb.2.1, trimChain_mono (by omega) (ih b hrest)⟩

theorem enum_off_chain : ∀ (offs : List (Nat × Nat × Str)) (lo k : Nat),
    trimChain lo offs →
    OffChain lo ((List.enumFrom k offs).map (fun q => (q.1, q.2.1, q.2.2.1))) := by
  intro offs
  induction offs with
  | nil => intro lo k _; trivial
  | cons q rest ih =>
    obtain ⟨a, b, s⟩ := q
    intro lo k hch
    rw [List.enumFrom_cons, List.map_cons]
    exact ⟨hch.1, hch.2.1, ih b (k + 1) hch.2.2⟩

theorem splitOffsets_chain (t : Str) :
    OffChain 0 ((split_into_sentences_with_offsets t).enum.map
      (fun q => (q.1, q.2.1, q.2.2.1))) := by
  unfold split_into_sentences_with_offsets
  rw [List.enum]
  exact enum_off_chain _ 0 0 (trim_chain t _ 0 (rawSpans_chain t 0 0 (le_refl 0)))

theorem buildParts_chain (segStart segLen : Nat) : ∀ (offs : List SentOff) (lo : Nat),
    OffChain lo offs →
    PartsChain (lo - segStart) (buildParts segStart segLen offs) := by
  intro offs
  induction offs with
  | nil => intro lo _; trivial
  | cons q rest ih =>
    obtain ⟨idx, s, e⟩ := q
    intro lo hch
    obtain ⟨hls, hse, hrest⟩ := hch
    rw [buildParts]
    by_cases hsk : segStart + segLen ≤ s ∨ e ≤ segStart
    · rw [if_pos hsk]
      exact PartsChain_mono (by omega) (ih e hrest)
    · rw [if_neg hsk]
      push_neg at hsk
      refine ⟨by omega, ?_, ?_⟩
      · have h1 : s - segStart ≤ e - segStart := by omega
        have h2 : s - segStart ≤ segLen := by omega
        omega
      · exact PartsChain_mono (by omega) (ih e hrest)

theorem PartsChain_lb : ∀ (l : List (Nat × Nat × Nat)) (pos : Nat),
    PartsChain pos l → ∀ q ∈ l, pos ≤ q.1 := by
  intro l
  induction l with
  | nil => intro pos _ q hq; simp at hq
  | cons x rest ih =>
    obtain ⟨rs, re, i⟩ := x
    intro pos hch q hq
    obtain ⟨h1, h2, h3⟩ := hch
    rcases List.mem_cons.mp hq with rfl | hq2
    · exact h1
    · exact le_trans (le_trans h1 h2) (ih re h3 q hq2)

theorem PartsChain_sorted : ∀ (l : List (Nat × Nat × Nat)) (pos : Nat),
    PartsChain pos l →
    List.Pairwise (fun x y : Nat × Nat × Nat => x.1 ≤ y.1) l := by
  intro l
  induction l with
  | nil => intro pos _; exact List.Pairwise.nil
  | cons x rest ih =>
    obtain ⟨rs, re, i⟩ := x
    intro pos hch
    refine List.Pairwise.cons ?_ (ih re hch.2.2)
    intro q hq
    exact le_trans hch.2.1 (PartsChain_lb rest re hch.2.2 q hq)

theorem sortParts_id (l : List (Nat × Nat × Nat))
    (h : List.Pairwise (fun x y : Nat × Nat × Nat => x.1 ≤ y.1) l) :
    sortParts l = l :=
  List.Sorted.insertionSort_eq h

theorem sliceStr_to_end (s : Str) (pos : Nat) :
    sliceStr s pos s.length = s.drop pos := by
  unfold sliceStr
  rw [← List.length_drop]
  exact List.take_length _

theorem slice_append_drop (s : Str) (a b : Nat) (h : a ≤ b) :
    sliceStr s a b ++ s.drop b = s.drop a := by
  have h1 : s.drop b = (s.drop a).drop (b - a) := by
    rw [List.drop_drop]
    congr 1
    omega
  unfold sliceStr
  rw [h1]
  exact List.take_append_drop _ _

theorem textNodesL_append (l1 l2 : List Node) :
    textNodesL (l1 ++ l2) = textNodesL l1 ++ textNodesL l2 := by
  induction l1 with
  | nil => rfl
  | cons n rest ih =>
    show textNodesN n ++ textNodesL (rest ++ l2) = (textNodesN n ++ textNodesL rest) ++ _
    rw [ih, List.append_assoc]

theorem wrapNode_content (idx : Nat) (chunk : Str) :
    textNodesN (wrapNode idx chunk) = [chunk] := rfl

theorem assemble_content (segText : Str) : ∀ (parts : List (Nat × Nat × Nat)) (pos : Nat),
    PartsChain pos parts →
    (textNodesL (assembleParts segText pos parts)).flatten = segText.drop pos := by
  intro parts
  induction parts with
  | nil =>
    intro pos _
    rw [assembleParts]
    by_cases h : pos < segText.length
    · rw [if_pos h]
      rw [show textNodesL [Node.txt (sliceStr segText pos segText.length)] =
            [sliceStr segText pos segText.length] from rfl]
      rw [show ([sliceStr segText pos segText.length] : List Str).flatten =
            sliceStr segText pos segText.length from by simp]
      exact sliceStr_to_end segText pos
    · rw [if_neg h]
      rw [List.drop_eq_nil_of_le (by omega)]
      rfl
  | cons x rest ih =>
    obtain ⟨rs, re, idx⟩ := x
    intro pos hch
    obtain ⟨hpr, hrr, hrest⟩ := hch
    rw [assembleParts]
    by_cases hgap : pos < rs
    · rw [if_pos hgap]
      rw [show ([Node.txt (sliceStr segText pos rs)] ++
            wrapNode idx (sliceStr segText rs re) :: assembleParts segText re rest) =
            Node.txt (sliceStr segText pos rs) ::
              wrapNode idx (sliceStr segText rs re) :: assembleParts segText re rest from rfl]
      rw [show textNodesL (Node.txt (sliceStr segText pos rs) ::
            wrapNode idx (sliceStr segText rs re) :: assembleParts segText re rest) =
            sliceStr segText pos rs :: sliceStr segText rs re ::
              textNodesL (assembleParts segText re rest) from rfl]
      rw [List.flatten_cons, List.flatten_cons, ih re hrest]
      rw [slice_append_drop segText rs re hrr, slice_append_drop segText pos rs (by omega)]
    · rw [if_neg hgap]
      have hpos : pos = rs := by omega
      subst hpos
      rw [List.nil_append]
      rw [show textNodesL (wrapNode idx (sliceStr segText pos re) ::
            assembleParts segText re rest) =
            sliceStr segText pos re :: textNodesL (assembleParts segText re rest) from rfl]
      rw [List.flatten_cons, ih re hrest]
      rw [slice_append_drop segText pos re hrr]

theorem assemble_ok (segText : Str) : ∀ (parts : List (Nat × Nat × Nat)) (pos : Nat),
    ∀ n ∈ assembleParts segText pos parts, OkPart n := by
  intro parts
  induction parts with
  | nil =>
    intro pos n hn
    rw [assembleParts] at hn
    split at hn
    · rcases List.mem_singleton.mp hn with rfl
      exact OkPart.txt _
    · simp at hn
  | cons x rest ih =>
    obtain ⟨rs, re, idx⟩ := x
    intro pos n hn
    rw [assembleParts] at hn
    rcases List.mem_append.mp hn with h1 | h1
    · split at h1
      · rcases List.mem_singleton.mp h1 with rfl
        exact OkPart.txt _
      · simp at h1
    · rcases List.mem_cons.mp h1 with rfl | h2
      · exact OkPart.wrap idx _
      · exact ih re n h2

theorem SimL_refl : ∀ doc : List Node, SimL doc doc
  | [] => SimL.nil
  | Node.txt s :: rest => by
    have h : SimL (Node.txt s :: rest) ([Node.txt s] ++ rest) :=
      SimL.txt s [Node.txt s] rest rest
        (by intro n hn; rcases List.mem_singleton.mp hn with rfl; exact OkPart.txt s)
        (by simp [textNodesL, textNodesN])
        (SimL_refl rest)
    simpa using h
  | Node.elem t a cs :: rest =>
    SimL.elem t a cs cs rest rest (SimL_refl cs) (SimL_refl rest)

theorem rewrittenText_ok (offs : List SentOff) (hc : OffChain 0 offs) (s : Str) (cur : Nat) :
    (∀ n ∈ rewrittenText offs s cur, OkPart n) ∧
      (textNodesL (rewrittenText offs s cur)).flatten = s := by
  unfold rewrittenText
  have hchain : PartsChain 0 (buildParts cur s.length offs) := by
    have := buildParts_chain cur s.length offs 0 hc
    simpa using this
  have hsorted := PartsChain_sorted _ 0 hchain
  rw [sortParts_id _ hsorted]
  by_cases hp : (buildParts cur s.length offs).isEmpty
  · rw [if_pos hp]
    refine ⟨?_, by simp [textNodesL, textNodesN]⟩
    intro n hn
    rcases List.mem_singleton.mp hn with rfl
    exact OkPart.txt s
  · rw [if_neg hp]
    refine ⟨assemble_ok s _ 0, ?_⟩
    rw [assemble_content s _ 0 hchain]
    rfl

theorem rewrite_sim (offs : List SentOff) (hc : OffChain 0 offs) :
    ∀ (ns : List Node) (cur : Nat), SimL ns (rewriteNodes offs ns cur).1
  | [], cur => by
    rw [rewriteNodes]
    exact SimL.nil
  | Node.txt s :: rest, cur => by
    rw [rewriteNodes]
    by_cases hs : s.isEmpty
    · rw [if_pos hs]
      have hse : s = [] := by
        cases s with
        | nil => rfl
        | cons c cs => simp at hs
      have h : SimL (Node.txt s :: rest) ([Node.txt s] ++ (rewriteNodes offs rest cur).1) :=
        SimL.txt s [Node.txt s] rest _
          (by intro n hn; rcases List.mem_singleton.mp hn with rfl; exact OkPart.txt s)
          (by simp [textNodesL, textNodesN])
          (rewrite_sim offs hc rest cur)
      simpa using h
    · rw [if_neg hs]
      have hok := rewrittenText_ok offs hc s cur
      exact SimL.txt s (rewrittenText offs s cur) rest _
        hok.1 hok.2 (rewrite_sim offs hc rest (cur + s.length))
  | Node.elem t a cs :: rest, cur => by
    rw [rewriteNodes]
    exact SimL.elem t a cs _ rest _
      (rewrite_sim offs hc cs cur)
      (rewrite_sim offs hc rest (rewriteNodes offs cs cur).2)

theorem SimL_flatten : ∀ {l1 l2 : List Node}, SimL l1 l2 →
    flattenedText l2 = flattenedText l1 := by
  intro l1 l2 h
  induction h with
  | nil => rfl
  | txt s ns rest rest2 hok hcont hrest ih =>
    unfold flattenedText at *
    rw [textNodesL_append, List.flatten_append, hcont]
    rw [show textNodesL (Node.txt s :: rest) = s :: textNodesL rest from rfl,
      List.flatten_cons, ih]
  | elem tag attrs cs cs2 rest rest2 hcs hrest ihcs ihrest =>
    unfold flattenedText at *
    rw [show textNodesL (Node.elem tag attrs cs2 :: rest2) =
          textNodesL cs2 ++ textNodesL rest2 from rfl,
      show textNodesL (Node.elem tag attrs cs :: rest) =
          textNodesL cs ++ textNodesL rest from rfl,
      List.flatten_append, List.flatten_append, ihcs, ihrest]

/-- C7: the sentence-span pass changes only text content — the output tree is
the input with each text node replaced by raw text runs and sentence-span
wrappers that together carry exactly the original characters, every element
keeping its tag and attributes (the `SimL` frame relation); the full
flattened text is preserved byte for byte; and in the degenerate cases (no
text segments, or no sentence spans) the input is returned unchanged together
with an empty sentence list. -/
theorem C7_sentence_spans_frame (doc : List Node) :
    SimL doc (add_sentence_spans doc).1 ∧
    flattenedText (add_sentence_spans doc).1 = flattenedText doc ∧
    ((_get_text_segments doc = [] ∨
        split_into_sentences_with_offsets (flattenedText doc) = []) →
      add_sentence_spans doc = (doc, [])) := by
  have hsim : SimL doc (add_sentence_spans doc).1 := by
    unfold add_sentence_spans
    by_cases h1 : (_get_text_segments doc).isEmpty
    · rw [if_pos h1]
      exact SimL_refl doc
    · rw [if_neg h1]
      by_cases h2 : (split_into_sentences_with_offsets (flattenedText doc)).isEmpty
      · rw [if_pos h2]
        exact SimL_refl doc
      · rw [if_neg h2]
        exact rewrite_sim _ (splitOffsets_chain (flattenedText doc)) doc 0
  refine ⟨hsim, SimL_flatten hsim, ?_⟩
  intro h
  unfold add_sentence_spans
  rcases h with h | h
  · rw [if_pos (by simp [h])]
  · by_cases h1 : (_get_text_segments doc).isEmpty
    · rw [if_pos h1]
    · rw [if_neg h1, if_pos (by simp [h])]

/-- C7 witness: a document with markup but no text at all is returned
unchanged with an empty sentence list. -/
theorem C7_sentence_spans_witness :
    add_sentence_spans [Node.elem "p".toList [] []] = ([Node.elem "p".toList [] []], []) :=
  (C7_sentence_spans_frame [Node.elem "p".toList [] []]).2.2 (Or.inl rfl)
